import Mathlib

/-!
Verification of the Elliott-Wave backtesting core (Ur-EW-Code backup,
2025-09-08).  Python floats are embedded as rationals, NaN-able arrays as
lists of `Option ℚ`, and the bar-walking loops as explicit state-passing
recursions.  Every definition is a direct translation of the corresponding
source function; theorems settle the specification claims C1..C10.
-/

set_option maxHeartbeats 1000000
set_option linter.unusedVariables false

namespace EW

/-- Trade direction, mirroring the source enumeration `Dir` (UP/DOWN). -/
inductive Dir where
  | UP
  | DOWN
  deriving DecidableEq, Repr

/-- Pivot kind: swing high or swing low (the source uses the strings H/L). -/
inductive Kind where
  | H
  | L
  deriving DecidableEq, Repr

/-- Swing pivot produced by the zigzag detector (`@dataclass Pivot`). -/
structure Pivot where
  idx : Nat
  price : ℚ
  kind : Kind
  deriving DecidableEq, Repr

/-- Detected impulse structure (`@dataclass Impulse`). -/
structure Impulse where
  direction : Dir
  points : List Pivot
  deriving DecidableEq, Repr

/-- Fibonacci extension, translated from `ElliottEngine.fib_ext`:
`B+(B-A)*(ext-1.0)` for UP, `B-(A-B)*(ext-1.0)` for DOWN. -/
def fib_ext (A B : ℚ) (d : Dir) (ext : ℚ) : ℚ :=
  match d with
  | Dir.UP => B + (B - A) * (ext - 1)
  | Dir.DOWN => B - (A - B) * (ext - 1)

/-- C8: for all prices A and B and both directions,
`fib_ext A B direction 1.0` equals `B` exactly. -/
theorem fib_ext_identity (A B : ℚ) (d : Dir) : fib_ext A B d 1 = B := by
  cases d <;> simp [fib_ext]

/-- Adaptive threshold, translated from `ElliottEngine._thr`: `base*pct` when
the volatility value is NaN (modelled as `none`), else
`max(base*pct, atr*atr_mult)`. -/
def thr (base : ℚ) (atr : Option ℚ) (pct atr_mult : ℚ) : ℚ :=
  match atr with
  | none => base * pct
  | some a => max (base * pct) (a * atr_mult)

/-- Loop state of `ElliottEngine.zigzag`: the local variables
`last, hi, lo, hi_i, lo_i, direction` plus the accumulated pivot list. -/
structure ZigState where
  last : ℚ
  hi : ℚ
  lo : ℚ
  hi_i : Nat
  lo_i : Nat
  direction : Option Dir
  piv : List Pivot
  deriving DecidableEq, Repr

/-- One iteration of the `zigzag` scan loop.  The threshold is computed once
per bar from the anchor price `last` at loop entry; the first branch runs when
the direction is unset or UP, the second when (after the first branch) it is
unset or DOWN — exactly the two sequential `if direction in ...` blocks of the
source. -/
def zigzagStep (pct atr_mult : ℚ) (atr : List (Option ℚ)) (st : ZigState)
    (ic : Nat × ℚ) : ZigState :=
  let i := ic.1
  let p := ic.2
  let t := thr st.last (atr.getD i none) pct atr_mult
  let st1 :=
    if st.direction = none ∨ st.direction = some Dir.UP then
      let s := if st.hi < p then { st with hi := p, hi_i := i } else st
      if t ≤ s.hi - p then
        { s with piv := s.piv ++ [⟨s.hi_i, s.hi, Kind.H⟩], last := s.hi,
                 lo := p, lo_i := i, direction := some Dir.DOWN }
      else s
    else st
  if st1.direction = none ∨ st1.direction = some Dir.DOWN then
    let s := if p < st1.lo then { st1 with lo := p, lo_i := i } else st1
    if t ≤ p - s.lo then
      { s with piv := s.piv ++ [⟨s.lo_i, s.lo, Kind.L⟩], last := s.lo,
               hi := p, hi_i := i, direction := some Dir.UP }
    else s
  else st1

/-- Cleanup pass of `zigzag`, with the accumulator kept in reverse order
(head = the `cleaned[-1]` of the source): append when the kind alternates,
otherwise replace the last pivot when the new one is at least as extreme
(higher high / lower low), else drop the new pivot. -/
def cleanupAux : List Pivot → List Pivot → List Pivot
  | acc, [] => acc.reverse
  | [], p :: rest => cleanupAux [p] rest
  | q :: accTail, p :: rest =>
      if q.kind ≠ p.kind then cleanupAux (p :: q :: accTail) rest
      else if (p.kind = Kind.H ∧ q.price ≤ p.price) ∨
              (p.kind = Kind.L ∧ p.price ≤ q.price) then
        cleanupAux (p :: accTail) rest
      else cleanupAux (q :: accTail) rest

/-- Cleanup pass applied to an empty accumulator (the second loop of
`ElliottEngine.zigzag`). -/
def cleanup (piv : List Pivot) : List Pivot := cleanupAux [] piv

/-- Zigzag pivot detector, translated from `ElliottEngine.zigzag`: the scan
loop over bars `1..n-1` followed by a stable sort on `idx` and the
same-kind cleanup pass.  Series shorter than 3 samples yield `[]`. -/
def zigzag (pct atr_mult : ℚ) (close : List ℚ) (atr : List (Option ℚ)) :
    List Pivot :=
  if close.length < 3 then []
  else
    match close with
    | [] => []
    | c0 :: _ =>
      let init : ZigState := ⟨c0, c0, c0, 0, 0, none, []⟩
      let fin := (close.enum.drop 1).foldl (zigzagStep pct atr_mult atr) init
      cleanup (fin.piv.insertionSort (fun a b => a.idx ≤ b.idx))

/-- Kinds of consecutive pivots differ — the alternation relation of the
spec's Pivot invariant. -/
def altKind (a b : Pivot) : Prop := a.kind ≠ b.kind

instance : DecidableRel altKind := fun a b => by
  unfold altKind; infer_instance

theorem cleanupAux_nil (acc : List Pivot) : cleanupAux acc [] = acc.reverse := by
  cases acc <;> rfl

theorem cleanupAux_emp (p : Pivot) (rest : List Pivot) :
    cleanupAux [] (p :: rest) = cleanupAux [p] rest := rfl

theorem cleanupAux_cons (q : Pivot) (accTail : List Pivot) (p : Pivot)
    (rest : List Pivot) :
    cleanupAux (q :: accTail) (p :: rest) =
      if q.kind ≠ p.kind then cleanupAux (p :: q :: accTail) rest
      else if (p.kind = Kind.H ∧ q.price ≤ p.price) ∨
              (p.kind = Kind.L ∧ p.price ≤ q.price) then
        cleanupAux (p :: accTail) rest
      else cleanupAux (q :: accTail) rest := rfl

/-- Interior lemma: the cleanup pass preserves kind-alternation of the
(reversed) accumulator, hence its output always alternates. -/
theorem cleanupAux_chain' (rest : List Pivot) :
    ∀ acc : List Pivot, List.Chain' altKind acc →
      List.Chain' altKind (cleanupAux acc rest) := by
  induction rest with
  | nil =>
    intro acc hacc
    rw [cleanupAux_nil, List.chain'_reverse]
    exact hacc.imp (fun a b h => Ne.symm h)
  | cons p rest ih =>
    intro acc hacc
    match acc with
    | [] =>
      rw [cleanupAux_emp]
      exact ih [p] (List.chain'_singleton p)
    | q :: accTail =>
      rw [cleanupAux_cons]
      by_cases hk : q.kind ≠ p.kind
      · rw [if_pos hk]
        refine ih (p :: q :: accTail) ?_
        exact List.chain'_cons.mpr ⟨Ne.symm hk, hacc⟩
      · rw [if_neg hk]
        push_neg at hk
        have hrep : List.Chain' altKind (p :: accTail) := by
          match accTail, hacc with
          | [], _ => exact List.chain'_singleton p
          | a :: t, hacc2 =>
            rcases List.chain'_cons.mp hacc2 with ⟨hqa, ht⟩
            refine List.chain'_cons.mpr ⟨?_, ht⟩
            intro hpa
            exact hqa (show q.kind = a.kind from hk.trans hpa)
        by_cases hx : (p.kind = Kind.H ∧ q.price ≤ p.price) ∨
            (p.kind = Kind.L ∧ p.price ≤ q.price)
        · rw [if_pos hx]
          exact ih (p :: accTail) hrep
        · rw [if_neg hx]
          exact ih (q :: accTail) hacc

/-- C4: every pivot list produced by the zigzag detector alternates in kind
(no two consecutive pivots share `kind`), and an input series of fewer than
3 samples yields the empty list. -/
theorem zigzag_alternation_and_short_empty (pct atr_mult : ℚ)
    (close : List ℚ) (atr : List (Option ℚ)) :
    List.Chain' altKind (zigzag pct atr_mult close atr) ∧
      (close.length < 3 → zigzag pct atr_mult close atr = []) := by
  constructor
  · unfold zigzag
    by_cases h : close.length < 3
    · simp [h]
    · simp only [h, if_neg, not_false_iff]
      match close with
      | [] => exact List.chain'_nil
      | c0 :: cs => exact cleanupAux_chain' _ [] List.chain'_nil
  · intro h
    unfold zigzag
    simp [h]

/-- Witness for C4 at concrete inputs: a 4-bar series alternates, and a
2-bar series yields the empty pivot list. -/
theorem zigzag_alternation_witness :
    List.Chain' altKind (zigzag (1/20) 0 [100, 110, 100, 110]
      [none, none, none, none]) ∧
      zigzag (1/20) 0 [100, 110] [none, none] = [] :=
  ⟨(zigzag_alternation_and_short_empty (1/20) 0 [100, 110, 100, 110]
      [none, none, none, none]).1,
   (zigzag_alternation_and_short_empty (1/20) 0 [100, 110]
      [none, none]).2 (by decide)⟩

/-- Scan loop of `ElliottEngine.detect_impulses`: a 6-pivot window advances
by 1 on rejection and by 3 past an accepted impulse.  Gates are translated
verbatim (`0.6 = 3/5`, `0.98 = 49/50`, `1.02 = 51/50`); the ATR at wave-3 is
read at index `min(p3.idx, len(atr)-1)`. -/
def detectGo (min_imp : ℚ) (atr : List ℚ) : Nat → List Pivot → List Impulse
  | 0, _ => []
  | fuel + 1, p0 :: p1 :: p2 :: p3 :: p4 :: p5 :: rest =>
    match p0.kind, p1.kind, p2.kind, p3.kind, p4.kind, p5.kind with
    | Kind.L, Kind.H, Kind.L, Kind.H, Kind.L, Kind.H =>
      let w1 := p1.price - p0.price
      let w3 := p3.price - p2.price
      if p2.price ≤ p0.price ∨ w1 ≤ 0 ∨ w3 < (3/5) * w1 then
        detectGo min_imp atr fuel (p1 :: p2 :: p3 :: p4 :: p5 :: rest)
      else if p4.price ≤ p1.price * (49/50) then
        detectGo min_imp atr fuel (p1 :: p2 :: p3 :: p4 :: p5 :: rest)
      else if 0 < atr.getD (min p3.idx (atr.length - 1)) 0 ∧
          w3 / atr.getD (min p3.idx (atr.length - 1)) 0 < min_imp then
        detectGo min_imp atr fuel (p1 :: p2 :: p3 :: p4 :: p5 :: rest)
      else
        ⟨Dir.UP, [p0, p1, p2, p3, p4, p5]⟩ :: detectGo min_imp atr fuel (p3 :: p4 :: p5 :: rest)
    | Kind.H, Kind.L, Kind.H, Kind.L, Kind.H, Kind.L =>
      let w1 := p0.price - p1.price
      let w3 := p2.price - p3.price
      if p0.price ≤ p2.price ∨ w1 ≤ 0 ∨ w3 < (3/5) * w1 then
        detectGo min_imp atr fuel (p1 :: p2 :: p3 :: p4 :: p5 :: rest)
      else if p1.price * (51/50) ≤ p4.price then
        detectGo min_imp atr fuel (p1 :: p2 :: p3 :: p4 :: p5 :: rest)
      else if 0 < atr.getD (min p3.idx (atr.length - 1)) 0 ∧
          |w3| / atr.getD (min p3.idx (atr.length - 1)) 0 < min_imp then
        detectGo min_imp atr fuel (p1 :: p2 :: p3 :: p4 :: p5 :: rest)
      else
        ⟨Dir.DOWN, [p0, p1, p2, p3, p4, p5]⟩ :: detectGo min_imp atr fuel (p3 :: p4 :: p5 :: rest)
    | _, _, _, _, _, _ => detectGo min_imp atr fuel (p1 :: p2 :: p3 :: p4 :: p5 :: rest)
  | _ + 1, _ => []

/-- Impulse detector, translated from `ElliottEngine.detect_impulses` (the
`close` argument is received but never read by the source body). -/
def detect_impulses (min_imp : ℚ) (piv : List Pivot) (close : List ℚ)
    (atr : List ℚ) : List Impulse :=
  detectGo min_imp atr piv.length piv

/-- Concrete six-pivot sequence of claim C5. -/
def pivC5 : List Pivot :=
  [⟨0, 100, Kind.L⟩, ⟨1, 110, Kind.H⟩, ⟨2, 105, Kind.L⟩,
   ⟨3, 115, Kind.H⟩, ⟨4, 108, Kind.L⟩, ⟨5, 120, Kind.H⟩]

/-- C5: on the pivot list [(0,100,L),(1,110,H),(2,105,L),(3,115,H),(4,108,L),
(5,120,H)] with a constant ATR array of 1.0 and minimum-impulse-ATR ratio 2.0,
the detector returns exactly one impulse, UP, whose six points are exactly
those pivots (for every close series, which the detector never reads). -/
theorem detect_impulses_scenario (close : List ℚ) :
    detect_impulses 2 pivC5 close [1, 1, 1, 1, 1, 1] = [⟨Dir.UP, pivC5⟩] := by
  norm_num [detect_impulses, detectGo, pivC5]

/-- One OHLC bar together with the indicator columns the core reads
(`open`, `high`, `low`, `close`, `EMA_FAST`, `EMA_SLOW`). -/
structure Bar where
  op : ℚ
  hi : ℚ
  lo : ℚ
  cl : ℚ
  ef : ℚ
  es : ℚ
  deriving DecidableEq, Repr, Inhabited

/-- Mutable locals of one `simulate` call: position fraction, realized
per-share PnL, current stop, running favorable extreme, and the excursion
statistics. -/
structure SimState where
  pos : ℚ
  realized : ℚ
  stop : ℚ
  extreme : ℚ
  mae : ℚ
  mfe : ℚ
  deriving DecidableEq, Repr

/-- One iteration of the `simulate` bar loop, returning the end-of-iteration
state and, when the source body executes an early `return`, the exit price and
realized PnL of that return.  Statement order follows the source: extreme/
MAE/MFE updates, break-even promotion at +1R, partial exit at target 1 with
stop moved to entry, stop breach exit, then target-2 exit. -/
def simStep (d : Dir) (entry R tp1 tp2 : ℚ) (s : SimState) (b : Bar) :
    SimState × Option (ℚ × ℚ) :=
  match d with
  | Dir.UP =>
    let extreme := max s.extreme b.hi
    let mae := min s.mae ((b.lo - entry) / R)
    let mfe := max s.mfe ((b.hi - entry) / R)
    let stop1 := if s.pos = 1 ∧ R ≤ extreme - entry then max s.stop entry else s.stop
    let hitTp1 := s.pos = 1 ∧ tp1 ≤ b.hi
    let realized := if hitTp1 then s.realized + (tp1 - entry) * (1/2) else s.realized
    let pos := if hitTp1 then 1/2 else s.pos
    let stop := if hitTp1 then entry else stop1
    if b.lo ≤ stop then
      (⟨pos, realized + (stop - entry) * pos, stop, extreme, mae, mfe⟩,
        some (stop, realized + (stop - entry) * pos))
    else if pos = 1/2 ∧ tp2 ≤ b.hi then
      (⟨pos, realized + (tp2 - entry) * (1/2), stop, extreme, mae, mfe⟩,
        some (tp2, realized + (tp2 - entry) * (1/2)))
    else (⟨pos, realized, stop, extreme, mae, mfe⟩, none)
  | Dir.DOWN =>
    let extreme := min s.extreme b.lo
    let mae := min s.mae ((entry - b.hi) / R)
    let mfe := max s.mfe ((entry - b.lo) / R)
    let stop1 := if s.pos = 1 ∧ R ≤ entry - extreme then min s.stop entry else s.stop
    let hitTp1 := s.pos = 1 ∧ b.lo ≤ tp1
    let realized := if hitTp1 then s.realized + (entry - tp1) * (1/2) else s.realized
    let pos := if hitTp1 then 1/2 else s.pos
    let stop := if hitTp1 then entry else stop1
    if stop ≤ b.hi then
      (⟨pos, realized + (entry - stop) * pos, stop, extreme, mae, mfe⟩,
        some (stop, realized + (entry - stop) * pos))
    else if pos = 1/2 ∧ b.lo ≤ tp2 then
      (⟨pos, realized + (entry - tp2) * (1/2), stop, extreme, mae, mfe⟩,
        some (tp2, realized + (entry - tp2) * (1/2)))
    else (⟨pos, realized, stop, extreme, mae, mfe⟩, none)

/-- Bar-walking loop of `simulate` over the index list
`entry_i+1 .. end`; on loop exhaustion the remaining position is force-closed
at the last close and MFE is updated one final time, as in the source. -/
def simGo (df : List Bar) (d : Dir) (entry R tp1 tp2 : ℚ) (endI : Nat) :
    SimState → List Nat → Nat × ℚ × ℚ × ℚ × ℚ
  | s, [] =>
    let last := (df.getD endI default).cl
    match d with
    | Dir.UP => (endI, last, s.realized + (last - entry) * s.pos, s.mae,
        max s.mfe ((last - entry) / R))
    | Dir.DOWN => (endI, last, s.realized + (entry - last) * s.pos, s.mae,
        max s.mfe ((entry - last) / R))
  | s, i :: rest =>
    match simStep d entry R tp1 tp2 s (df.getD i default) with
    | (s2, some pe) => (i, pe.1, pe.2, s2.mae, s2.mfe)
    | (s2, none) => simGo df d entry R tp1 tp2 endI s2 rest

/-- Trade path simulator, translated from the module-level `simulate`:
returns exit index, exit price, realized per-share PnL, MAE and MFE
(both in R-multiples). -/
def simulate (df : List Bar) (entry_i : Nat) (entry : ℚ) (d : Dir)
    (stop tp1 tp2 : ℚ) (max_bars : Nat) : Nat × ℚ × ℚ × ℚ × ℚ :=
  let endI := min (entry_i + max_bars) (df.length - 1)
  let R := |entry - stop|
  simGo df d entry R tp1 tp2 endI ⟨1, 0, stop, entry, 0, 0⟩
    (List.range' (entry_i + 1) (endI - entry_i))

/-- Values taken by the loop's `stop` variable after each processed bar of a
`simulate` run, including the bar on which the simulation returns. -/
def simStops (df : List Bar) (d : Dir) (entry R tp1 tp2 : ℚ) :
    SimState → List Nat → List ℚ
  | _, [] => []
  | s, i :: rest =>
    match simStep d entry R tp1 tp2 s (df.getD i default) with
    | (s2, some _) => [s2.stop]
    | (s2, none) => s2.stop :: simStops df d entry R tp1 tp2 s2 rest

theorem simGo_nil (df : List Bar) (d : Dir) (entry R tp1 tp2 : ℚ) (endI : Nat)
    (s : SimState) :
    simGo df d entry R tp1 tp2 endI s [] =
      match d with
      | Dir.UP => (endI, (df.getD endI default).cl,
          s.realized + ((df.getD endI default).cl - entry) * s.pos, s.mae,
          max s.mfe (((df.getD endI default).cl - entry) / R))
      | Dir.DOWN => (endI, (df.getD endI default).cl,
          s.realized + (entry - (df.getD endI default).cl) * s.pos, s.mae,
          max s.mfe ((entry - (df.getD endI default).cl) / R)) := rfl

theorem simGo_cons (df : List Bar) (d : Dir) (entry R tp1 tp2 : ℚ) (endI : Nat)
    (s : SimState) (i : Nat) (rest : List Nat) :
    simGo df d entry R tp1 tp2 endI s (i :: rest) =
      match simStep d entry R tp1 tp2 s (df.getD i default) with
      | (s2, some pe) => (i, pe.1, pe.2, s2.mae, s2.mfe)
      | (s2, none) => simGo df d entry R tp1 tp2 endI s2 rest := rfl

theorem simStops_nil (df : List Bar) (d : Dir) (entry R tp1 tp2 : ℚ)
    (s : SimState) : simStops df d entry R tp1 tp2 s [] = [] := rfl

theorem simStops_cons (df : List Bar) (d : Dir) (entry R tp1 tp2 : ℚ)
    (s : SimState) (i : Nat) (rest : List Nat) :
    simStops df d entry R tp1 tp2 s (i :: rest) =
      match simStep d entry R tp1 tp2 s (df.getD i default) with
      | (s2, some _) => [s2.stop]
      | (s2, none) => s2.stop :: simStops df d entry R tp1 tp2 s2 rest := rfl

/-- Break-even preservation for longs: once the stop is at or above the entry
price, one more loop iteration keeps it at or above the entry price (the only
writes are `stop = max(stop, entry)` and `stop = entry`). -/
theorem simStep_stop_up (entry R tp1 tp2 : ℚ) (s : SimState) (b : Bar)
    (h : entry ≤ s.stop) :
    entry ≤ (simStep Dir.UP entry R tp1 tp2 s b).1.stop := by
  simp only [simStep]
  split_ifs <;> simp_all <;> split_ifs <;> simp_all [le_max_iff]

/-- Break-even preservation for shorts: once the stop is at or below the
entry price, it stays at or below the entry price. -/
theorem simStep_stop_down (entry R tp1 tp2 : ℚ) (s : SimState) (b : Bar)
    (h : s.stop ≤ entry) :
    (simStep Dir.DOWN entry R tp1 tp2 s b).1.stop ≤ entry := by
  simp only [simStep]
  split_ifs <;> simp_all <;> split_ifs <;> simp_all [min_le_iff]

theorem simStops_inv_up (df : List Bar) (entry R tp1 tp2 : ℚ) :
    ∀ (idxs : List Nat) (s : SimState), entry ≤ s.stop →
      ∀ y ∈ simStops df Dir.UP entry R tp1 tp2 s idxs, entry ≤ y := by
  intro idxs
  induction idxs with
  | nil => intro s hs y hy; rw [simStops_nil] at hy; cases hy
  | cons i rest ih =>
    intro s hs y hy
    rw [simStops_cons] at hy
    rcases hstep : simStep Dir.UP entry R tp1 tp2 s (df.getD i default) with ⟨s2, ex⟩
    have hs2 : entry ≤ s2.stop := by
      have h0 := simStep_stop_up entry R tp1 tp2 s (df.getD i default) hs
      rw [hstep] at h0
      exact h0
    rw [hstep] at hy
    cases ex with
    | some pe =>
      rcases List.mem_singleton.mp hy with rfl
      exact hs2
    | none =>
      rcases List.mem_cons.mp hy with rfl | hmem
      · exact hs2
      · exact ih s2 hs2 y hmem

theorem simStops_inv_down (df : List Bar) (entry R tp1 tp2 : ℚ) :
    ∀ (idxs : List Nat) (s : SimState), s.stop ≤ entry →
      ∀ y ∈ simStops df Dir.DOWN entry R tp1 tp2 s idxs, y ≤ entry := by
  intro idxs
  induction idxs with
  | nil => intro s hs y hy; rw [simStops_nil] at hy; cases hy
  | cons i rest ih =>
    intro s hs y hy
    rw [simStops_cons] at hy
    rcases hstep : simStep Dir.DOWN entry R tp1 tp2 s (df.getD i default) with ⟨s2, ex⟩
    have hs2 : s2.stop ≤ entry := by
      have h0 := simStep_stop_down entry R tp1 tp2 s (df.getD i default) hs
      rw [hstep] at h0
      exact h0
    rw [hstep] at hy
    cases ex with
    | some pe =>
      rcases List.mem_singleton.mp hy with rfl
      exact hs2
    | none =>
      rcases List.mem_cons.mp hy with rfl | hmem
      · exact hs2
      · exact ih s2 hs2 y hmem

theorem simStops_mono_up (df : List Bar) (entry R tp1 tp2 : ℚ) :
    ∀ (idxs : List Nat) (s : SimState) (l₁ l₂ : List ℚ) (x : ℚ),
      simStops df Dir.UP entry R tp1 tp2 s idxs = l₁ ++ x :: l₂ →
      entry ≤ x → ∀ y ∈ l₂, entry ≤ y := by
  intro idxs
  induction idxs with
  | nil =>
    intro s l₁ l₂ x h
    rw [simStops_nil] at h
    exact absurd h.symm (List.append_ne_nil_of_right_ne_nil l₁ (List.cons_ne_nil x l₂))
  | cons i rest ih =>
    intro s l₁ l₂ x h hx y hy
    rw [simStops_cons] at h
    rcases hstep : simStep Dir.UP entry R tp1 tp2 s (df.getD i default) with ⟨s2, ex⟩
    rw [hstep] at h
    cases ex with
    | some pe =>
      cases l₁ with
      | nil =>
        rcases List.cons.inj h with ⟨rfl, hl2⟩
        rw [← hl2] at hy
        cases hy
      | cons a t =>
        rcases List.cons.inj h with ⟨rfl, hl2⟩
        exact absurd hl2.symm
          (List.append_ne_nil_of_right_ne_nil t (List.cons_ne_nil x l₂))
    | none =>
      cases l₁ with
      | nil =>
        rcases List.cons.inj h with ⟨hx2, hl2⟩
        have hs2 : entry ≤ s2.stop := hx2 ▸ hx
        rw [← hl2] at hy
        exact simStops_inv_up df entry R tp1 tp2 rest s2 hs2 y hy
      | cons a t =>
        rcases List.cons.inj h with ⟨rfl, hl2⟩
        exact ih s2 t l₂ x hl2 hx y hy

theorem simStops_mono_down (df : List Bar) (entry R tp1 tp2 : ℚ) :
    ∀ (idxs : List Nat) (s : SimState) (l₁ l₂ : List ℚ) (x : ℚ),
      simStops df Dir.DOWN entry R tp1 tp2 s idxs = l₁ ++ x :: l₂ →
      x ≤ entry → ∀ y ∈ l₂, y ≤ entry := by
  intro idxs
  induction idxs with
  | nil =>
    intro s l₁ l₂ x h
    rw [simStops_nil] at h
    exact absurd h.symm (List.append_ne_nil_of_right_ne_nil l₁ (List.cons_ne_nil x l₂))
  | cons i rest ih =>
    intro s l₁ l₂ x h hx y hy
    rw [simStops_cons] at h
    rcases hstep : simStep Dir.DOWN entry R tp1 tp2 s (df.getD i default) with ⟨s2, ex⟩
    rw [hstep] at h
    cases ex with
    | some pe =>
      cases l₁ with
      | nil =>
        rcases List.cons.inj h with ⟨rfl, hl2⟩
        rw [← hl2] at hy
        cases hy
      | cons a t =>
        rcases List.cons.inj h with ⟨rfl, hl2⟩
        exact absurd hl2.symm
          (List.append_ne_nil_of_right_ne_nil t (List.cons_ne_nil x l₂))
    | none =>
      cases l₁ with
      | nil =>
        rcases List.cons.inj h with ⟨hx2, hl2⟩
        have hs2 : s2.stop ≤ entry := hx2 ▸ hx
        rw [← hl2] at hy
        exact simStops_inv_down df entry R tp1 tp2 rest s2 hs2 y hy
      | cons a t =>
        rcases List.cons.inj h with ⟨rfl, hl2⟩
        exact ih s2 t l₂ x hl2 hx y hy

/-- C3: in a single simulator run, once the stop variable reaches the entry
price (break-even promotion at +1R) it never again takes a value below the
entry price for a long, and never a value above the entry price for a short:
every stop value recorded after one that is at break-even stays at or beyond
break-even. -/
theorem simulate_breakeven_monotonic (df : List Bar) (entry R tp1 tp2 : ℚ)
    (idxs : List Nat) (s : SimState) (l₁ l₂ : List ℚ) (x : ℚ) :
    (simStops df Dir.UP entry R tp1 tp2 s idxs = l₁ ++ x :: l₂ →
      entry ≤ x → ∀ y ∈ l₂, entry ≤ y) ∧
    (simStops df Dir.DOWN entry R tp1 tp2 s idxs = l₁ ++ x :: l₂ →
      x ≤ entry → ∀ y ∈ l₂, y ≤ entry) :=
  ⟨fun h hx => simStops_mono_up df entry R tp1 tp2 idxs s l₁ l₂ x h hx,
   fun h hx => simStops_mono_down df entry R tp1 tp2 idxs s l₁ l₂ x h hx⟩

/-- Witness for C3: a concrete long trade promotes its stop to entry on the
first bar and the recorded stop never drops below entry afterwards. -/
theorem simulate_breakeven_monotonic_witness :
    simStops [⟨0, 100, 100, 100, 0, 0⟩, ⟨0, 105, 101, 102, 0, 0⟩,
        ⟨0, 104, 102, 103, 0, 0⟩] Dir.UP 100 5 1000 2000
        ⟨1, 0, 95, 100, 0, 0⟩ [1, 2] = [] ++ (100 : ℚ) :: [100] ∧
      (100 : ℚ) ≤ 100 ∧ ∀ y ∈ [(100 : ℚ)], 100 ≤ y := by
  have htrace : simStops [⟨0, 100, 100, 100, 0, 0⟩, ⟨0, 105, 101, 102, 0, 0⟩,
      ⟨0, 104, 102, 103, 0, 0⟩] Dir.UP 100 5 1000 2000
      ⟨1, 0, 95, 100, 0, 0⟩ [1, 2] = [] ++ (100 : ℚ) :: [100] := by
    norm_num [simStops, simStep]
  exact ⟨htrace, le_refl _,
    (simulate_breakeven_monotonic _ 100 5 1000 2000 [1, 2] _ [] [100] 100).1
      htrace (le_refl _)⟩

/-- Excursion invariant of one simulator step: MAE only ever moves down from
zero (running minimum) and MFE only ever moves up from zero (running
maximum). -/
theorem simStep_mae_mfe (d : Dir) (entry R tp1 tp2 : ℚ) (s : SimState) (b : Bar)
    (h1 : s.mae ≤ 0) (h2 : 0 ≤ s.mfe) :
    (simStep d entry R tp1 tp2 s b).1.mae ≤ 0 ∧
      0 ≤ (simStep d entry R tp1 tp2 s b).1.mfe := by
  cases d <;>
    (simp only [simStep]
     split_ifs <;>
       exact ⟨le_trans (min_le_left _ _) h1, le_trans h2 (le_max_left _ _)⟩)

theorem simGo_mae_mfe (df : List Bar) (d : Dir) (entry R tp1 tp2 : ℚ)
    (endI : Nat) :
    ∀ (idxs : List Nat) (s : SimState), s.mae ≤ 0 → 0 ≤ s.mfe →
      (simGo df d entry R tp1 tp2 endI s idxs).2.2.2.1 ≤ 0 ∧
        0 ≤ (simGo df d entry R tp1 tp2 endI s idxs).2.2.2.2 := by
  intro idxs
  induction idxs with
  | nil =>
    intro s h1 h2
    rw [simGo_nil]
    cases d <;> exact ⟨h1, le_trans h2 (le_max_left _ _)⟩
  | cons i rest ih =>
    intro s h1 h2
    rw [simGo_cons]
    rcases hstep : simStep d entry R tp1 tp2 s (df.getD i default) with ⟨s2, ex⟩
    have hs2 : s2.mae ≤ 0 ∧ 0 ≤ s2.mfe := by
      have h0 := simStep_mae_mfe d entry R tp1 tp2 s (df.getD i default) h1 h2
      rw [hstep] at h0
      exact h0
    cases ex with
    | some pe => exact hs2
    | none => exact ih s2 hs2.1 hs2.2

/-- C9: for every bar list, entry index, entry price, direction, stop price
distinct from entry, targets and max-hold count, the returned MAE_R is
non-positive and the returned MFE_R is non-negative. -/
theorem simulate_mae_mfe_sign (df : List Bar) (entry_i : Nat) (entry : ℚ)
    (d : Dir) (stop tp1 tp2 : ℚ) (max_bars : Nat) (h : entry ≠ stop) :
    (simulate df entry_i entry d stop tp1 tp2 max_bars).2.2.2.1 ≤ 0 ∧
      0 ≤ (simulate df entry_i entry d stop tp1 tp2 max_bars).2.2.2.2 := by
  unfold simulate
  exact simGo_mae_mfe df d entry _ tp1 tp2 _ _ ⟨1, 0, stop, entry, 0, 0⟩
    (le_refl 0) (le_refl 0)

/-- Witness for C9 at a concrete immediate-stop-out trade. -/
theorem simulate_mae_mfe_sign_witness :
    (100 : ℚ) ≠ 95 ∧
      ((simulate [⟨0, 100, 100, 100, 0, 0⟩, ⟨0, 101, 94, 95, 0, 0⟩] 0 100
          Dir.UP 95 110 115 5).2.2.2.1 ≤ 0 ∧
        0 ≤ (simulate [⟨0, 100, 100, 100, 0, 0⟩, ⟨0, 101, 94, 95, 0, 0⟩] 0 100
          Dir.UP 95 110 115 5).2.2.2.2) :=
  ⟨by norm_num,
   simulate_mae_mfe_sign [⟨0, 100, 100, 100, 0, 0⟩, ⟨0, 101, 94, 95, 0, 0⟩]
     0 100 Dir.UP 95 110 115 5 (by norm_num)⟩

/-- Risk-sizing slice of the profile configuration: the keys read by
`build_equity.add`. -/
structure RiskCfg where
  RISK_PER_TRADE : ℚ
  RISK_PER_TRADE_MIN : ℚ
  RISK_PER_TRADE_MAX : ℚ
  SIZE_SHORT_FACTOR : ℚ
  SIZE_BY_PROB : Bool
  PROB_SIZE_MIN : ℚ
  PROB_SIZE_MAX : ℚ
  deriving Repr

/-- Current drawdown percentage, translated from `_dd_percent`. -/
def dd_percent (current_cap highest_cap : ℚ) : ℚ :=
  if 0 < highest_cap then (current_cap / highest_cap - 1) * 100 else 0

/-- Drawdown-tier multiplier, translated from `_risk_multiplier_for_dd`:
walk the configured `(threshold, multiplier)` steps in ascending threshold
order, assigning the multiplier of every tier whose threshold is at or above
the current drawdown; the last assignment wins. -/
def risk_multiplier_for_dd (dynamic : Bool) (steps : List (ℚ × ℚ))
    (cur_dd : ℚ) : ℚ :=
  if ¬ dynamic then 1
  else (steps.insertionSort (fun a b => a.1 ≤ b.1)).foldl
    (fun mult tm => if cur_dd ≤ tm.1 then tm.2 else mult) 1

/-- Clamped effective risk fraction of `build_equity.add`:
`eff_risk = base*dd_mult*vol_mult` followed by
`max(RISK_PER_TRADE_MIN, min(eff_risk, RISK_PER_TRADE_MAX))`. -/
def effRisk (cfg : RiskCfg) (dd_mult vol_mult : ℚ) : ℚ :=
  max cfg.RISK_PER_TRADE_MIN
    (min (cfg.RISK_PER_TRADE * dd_mult * vol_mult) cfg.RISK_PER_TRADE_MAX)

/-- Probability-based size scalar of `build_equity.add`:
`frac = max(0, (prob-threshold)/max(1e-6, 1-threshold))`, then linear
interpolation between `PROB_SIZE_MIN` and `PROB_SIZE_MAX`. -/
def probScale (cfg : RiskCfg) (threshold prob : ℚ) : ℚ :=
  cfg.PROB_SIZE_MIN + (cfg.PROB_SIZE_MAX - cfg.PROB_SIZE_MIN) *
    max 0 ((prob - threshold) / max (1/1000000) (1 - threshold))

/-- Position size of `build_equity.add`: the clamped risk budget divided by
risk-per-share, scaled by the short-direction factor and (when enabled) the
probability scalar, then `int(max(1, size))`. -/
def tradeSize (cfg : RiskCfg) (dd_mult vol_mult cap rps : ℚ) (isShort : Bool)
    (prob : Option ℚ) (threshold : ℚ) : ℤ :=
  let size0 := effRisk cfg dd_mult vol_mult * cap / max rps (1/1000000000)
  let size1 := if isShort then size0 * cfg.SIZE_SHORT_FACTOR else size0
  let size2 :=
    match prob with
    | some p => if cfg.SIZE_BY_PROB then size1 * probScale cfg threshold p
        else size1
    | none => size1
  ⌊max 1 size2⌋

/-- Risk the sized trade actually books relative to current capital:
`size * risk_per_share / cap`. -/
def sizedRiskFraction (cfg : RiskCfg) (dd_mult vol_mult cap rps : ℚ)
    (isShort : Bool) (prob : Option ℚ) (threshold : ℚ) : ℚ :=
  (tradeSize cfg dd_mult vol_mult cap rps isShort prob threshold : ℚ)
    * rps / cap

/-- Risk parameters of the balanced profile (`PROFILES["balanced"]`). -/
def cfgBalanced : RiskCfg :=
  ⟨1/100, 1/500, 1/50, 3/4, true, 7/10, 7/5⟩

/-- Drawdown steps of the balanced profile (`DD_RISK_STEPS`). -/
def ddStepsBalanced : List (ℚ × ℚ) :=
  [(-10, 3/4), (-20, 1/2), (-30, 7/20), (-40, 1/4)]

/-- Counterexample to C1: with the balanced profile, the drawdown multiplier
the code computes at −15% drawdown (0.75), volatility multiplier 0.4 (the
lower clamp of `_vol_adjustment`), a short trade whose probability equals the
threshold, capital 100000 and risk-per-share 1, the booked risk fraction is
157/100000 = 0.00157, strictly below the configured minimum 0.002 — the
short-direction factor, probability scaling and integer rounding act after
the clamp. -/
theorem sizedRiskFraction_below_min :
    sizedRiskFraction cfgBalanced
        (risk_multiplier_for_dd true ddStepsBalanced (dd_percent 85000 100000))
        (2/5) 100000 1 true (some (1/2)) (1/2) <
      cfgBalanced.RISK_PER_TRADE_MIN := by
  norm_num [sizedRiskFraction, tradeSize, effRisk, probScale, cfgBalanced,
    risk_multiplier_for_dd, ddStepsBalanced, dd_percent,
    List.insertionSort, List.orderedInsert]

/-- C1 amended: the clamped effective risk fraction — base risk times
drawdown-tier and volatility-target multipliers, clamped — lies within the
configured band for every multiplier combination whenever the band is
non-empty; the out-of-band sizing shown by the counterexample comes from the
factors applied after this clamp. -/
theorem effRisk_within_band (cfg : RiskCfg) (dd_mult vol_mult : ℚ)
    (h : cfg.RISK_PER_TRADE_MIN ≤ cfg.RISK_PER_TRADE_MAX) :
    cfg.RISK_PER_TRADE_MIN ≤ effRisk cfg dd_mult vol_mult ∧
      effRisk cfg dd_mult vol_mult ≤ cfg.RISK_PER_TRADE_MAX :=
  ⟨le_max_left _ _, max_le h (min_le_right _ _)⟩

/-- Witness for the amended C1 at the balanced profile. -/
theorem effRisk_within_band_witness :
    cfgBalanced.RISK_PER_TRADE_MIN ≤ cfgBalanced.RISK_PER_TRADE_MAX ∧
      (cfgBalanced.RISK_PER_TRADE_MIN ≤ effRisk cfgBalanced (3/4) (2/5) ∧
        effRisk cfgBalanced (3/4) (2/5) ≤ cfgBalanced.RISK_PER_TRADE_MAX) :=
  ⟨by norm_num [cfgBalanced],
   effRisk_within_band cfgBalanced (3/4) (2/5) (by norm_num [cfgBalanced])⟩

/-- Telemetry counters of the backtester (`self.telemetry`). -/
structure Telemetry where
  setups : Nat
  filtered_daily : Nat
  filtered_ema : Nat
  filtered_vol : Nat
  filtered_volatility : Nat
  filtered_regime : Nat
  no_touch : Nat
  no_confirm : Nat
  accepted : Nat
  deriving DecidableEq, Repr

/-- Risk-per-share gate of `simulate_all`: `rps = abs(entry-stop)`; when
`rps <= 1e-9` the candidate is skipped by a bare `continue` (no telemetry
write), otherwise the candidate is simulated and `accepted` is
incremented. -/
def processCandidate (tel : Telemetry) (entry stop : ℚ) :
    Telemetry × Option ℚ :=
  let rps := |entry - stop|
  if rps ≤ 1/1000000000 then (tel, none)
  else ({tel with accepted := tel.accepted + 1}, some rps)

/-- Counterexample to C6: a candidate with strictly positive risk-per-share
1e-10 is nevertheless discarded, and the discard leaves every telemetry
counter unchanged. -/
theorem rps_gate_counterexample :
    0 < |(0 : ℚ) - 1/10000000000| ∧
      (processCandidate ⟨0, 0, 0, 0, 0, 0, 0, 0, 0⟩ 0 (1/10000000000)).2 =
        none ∧
      (processCandidate ⟨0, 0, 0, 0, 0, 0, 0, 0, 0⟩ 0 (1/10000000000)).1 =
        ⟨0, 0, 0, 0, 0, 0, 0, 0, 0⟩ := by
  have habs : |(0 : ℚ) - 1/10000000000| = 1/10000000000 := by
    rw [zero_sub, abs_neg, abs_of_nonneg]
    norm_num
  have hp : processCandidate ⟨0, 0, 0, 0, 0, 0, 0, 0, 0⟩ 0 (1/10000000000) =
      (⟨0, 0, 0, 0, 0, 0, 0, 0, 0⟩, none) := by
    simp only [processCandidate, habs]
    rw [if_pos (by norm_num)]
  refine ⟨by rw [habs]; norm_num, ?_, ?_⟩ <;> rw [hp]

/-- C6 amended: a confirmed entry is discarded before simulation if and only
if its risk-per-share is at most 1e-9 (not merely non-positive), and the
discard path leaves the telemetry record unchanged — no counter is
incremented for it. -/
theorem rps_gate_amended (tel : Telemetry) (entry stop : ℚ) :
    ((processCandidate tel entry stop).2 = none ↔
        |entry - stop| ≤ 1/1000000000) ∧
      (processCandidate tel entry stop).1 =
        (if |entry - stop| ≤ 1/1000000000 then tel
         else { tel with accepted := tel.accepted + 1 }) := by
  by_cases h : |entry - stop| ≤ 1/1000000000
  · have hp : processCandidate tel entry stop = (tel, none) := by
      simp only [processCandidate]
      rw [if_pos h]
    rw [hp, if_pos h]
    exact ⟨⟨fun _ => h, fun _ => rfl⟩, rfl⟩
  · have hp : processCandidate tel entry stop =
        ({ tel with accepted := tel.accepted + 1 }, some |entry - stop|) := by
      simp only [processCandidate]
      rw [if_neg h]
    rw [hp, if_neg h]
    exact ⟨⟨fun hx => absurd hx (by simp), fun hc => absurd hc h⟩, rfl⟩

/-- Truncation toward zero, the behavior of python `int()` on a float. -/
def pyInt (x : ℚ) : ℤ := if 0 ≤ x then ⌊x⌋ else -⌊-x⌋

/-- Chronological split point of `Backtester.run`: candidate entry times
sorted ascending, `split_idx = max(1, int(len(times)*TRAIN_FRAC))`,
`train_until = times[split_idx-1]`. -/
def trainUntil (times : List ℚ) (train_frac : ℚ) : ℚ :=
  let sorted := times.insertionSort (fun a b => a ≤ b)
  let splitIdx := max 1 (pyInt ((times.length : ℚ) * train_frac)).toNat
  sorted.getD (splitIdx - 1) 0

/-- Classifier selection of `Backtester.run` under `USE_ML`: train only when
the training-period candidate list has at least 20 entries, otherwise keep no
model (`self.model = None`).  A candidate is the pair of its entry time and
its feature record; `fit` abstracts `GradientBoostingClassifier().fit`
composed with `predict_proba`. -/
def selectModel {α : Type} (fit : List (ℚ × α) → α → ℚ) (sims : List (ℚ × α))
    (train_until : ℚ) : Option (α → ℚ) :=
  let train := sims.filter (fun s => s.1 ≤ train_until)
  if 20 ≤ train.length then some (fit train) else none

/-- Accounting loop of `build_equity`: each candidate at or before the split
time is handed to `add` with no probability; a later candidate is handed to
`add` ungated when no model exists, else only when its predicted probability
reaches the threshold. -/
def gatedTrades {α : Type} (model : Option (α → ℚ)) (threshold : ℚ)
    (train_until : ℚ) (sims : List (ℚ × α)) : List ((ℚ × α) × Option ℚ) :=
  sims.filterMap (fun s =>
    if s.1 ≤ train_until then some (s, none)
    else
      match model with
      | none => some (s, none)
      | some f => if threshold ≤ f s.2 then some (s, some (f s.2)) else none)

/-- C7: when the chronologically earliest training fraction holds fewer than
20 candidates, no classifier is trained, and every candidate — training
period and out-of-sample alike — reaches equity accounting with no
probability gate applied. -/
theorem classifier_fail_open {α : Type} (fit : List (ℚ × α) → α → ℚ)
    (sims : List (ℚ × α)) (train_frac threshold : ℚ)
    (h : (sims.filter (fun s =>
        s.1 ≤ trainUntil (sims.map Prod.fst) train_frac)).length < 20) :
    selectModel fit sims (trainUntil (sims.map Prod.fst) train_frac) = none ∧
      gatedTrades
          (selectModel fit sims (trainUntil (sims.map Prod.fst) train_frac))
          threshold (trainUntil (sims.map Prod.fst) train_frac) sims =
        sims.map (fun s => (s, none)) := by
  have hm : selectModel fit sims (trainUntil (sims.map Prod.fst) train_frac)
      = none := by
    simp only [selectModel]
    rw [if_neg (by omega)]
  refine ⟨hm, ?_⟩
  rw [hm]
  simp only [gatedTrades, ite_self]
  show List.filterMap (some ∘ fun s => (s, none)) sims = _
  rw [List.filterMap_eq_map]

/-- Witness for C7: two candidates split at fraction 0.6 leave a single
training candidate (< 20), so no model is trained and both candidates pass
ungated. -/
theorem classifier_fail_open_witness :
    (([((0 : ℚ), 5), ((1 : ℚ), 7)].filter (fun s =>
        s.1 ≤ trainUntil ([((0 : ℚ), 5), ((1 : ℚ), 7)].map Prod.fst)
          (3/5))).length < 20) ∧
      (selectModel (fun _ _ => (1/2 : ℚ)) [((0 : ℚ), 5), ((1 : ℚ), 7)]
          (trainUntil ([((0 : ℚ), 5), ((1 : ℚ), 7)].map Prod.fst) (3/5)) =
          none ∧
        gatedTrades
            (selectModel (fun _ _ => (1/2 : ℚ)) [((0 : ℚ), 5), ((1 : ℚ), 7)]
              (trainUntil ([((0 : ℚ), 5), ((1 : ℚ), 7)].map Prod.fst) (3/5)))
            (1/2) (trainUntil ([((0 : ℚ), 5), ((1 : ℚ), 7)].map Prod.fst)
              (3/5)) [((0 : ℚ), 5), ((1 : ℚ), 7)] =
          [((0 : ℚ), 5), ((1 : ℚ), 7)].map (fun s => (s, none))) :=
  ⟨by norm_num [trainUntil, pyInt, List.insertionSort, List.orderedInsert],
   classifier_fail_open (fun _ _ => (1/2 : ℚ)) [((0 : ℚ), 5), ((1 : ℚ), 7)]
     (3/5) (1/2)
     (by norm_num [trainUntil, pyInt, List.insertionSort, List.orderedInsert])⟩

/-- Bar lookup by index (`df.iloc[i]` on the embedded bar list). -/
def barAt (df : List Bar) (i : Nat) : Bar := df.getD i default

/-- Confirmation search loop of `confirm_idx` over the bar indices
`touch_i..end`, checking the enabled rules in source order: break of the
fixed prior extreme first, then the fast-EMA cross. -/
def confirmLoop (df : List Bar) (d : Dir) (ruleBreak ruleEma : Bool)
    (prevHi prevLo : ℚ) : List Nat → Option Nat
  | [] => none
  | i :: rest =>
    if ruleBreak = true ∧ d = Dir.UP ∧ prevHi < (barAt df i).cl then some i
    else if ruleBreak = true ∧ d = Dir.DOWN ∧ (barAt df i).cl < prevLo then
      some i
    else if ruleEma = true ∧ d = Dir.UP ∧ (barAt df i).ef < (barAt df i).cl ∧
        (barAt df i).es < (barAt df i).ef then some i
    else if ruleEma = true ∧ d = Dir.DOWN ∧ (barAt df i).cl < (barAt df i).ef ∧
        (barAt df i).ef < (barAt df i).es then some i
    else confirmLoop df d ruleBreak ruleEma prevHi prevLo rest

/-- Entry confirmation, translated from `confirm_idx`: with confirmation
required, the reference extremes `prev_hi`/`prev_lo` are read once, before
the loop, from the bar at `max(0, touch_i-1)`; if no bar in the window
confirms, the window's last bar is used when the fallback flag is set, else
the setup expires (`None`). -/
def confirm_idx (requireConfirm ruleBreak ruleEma : Bool) (df : List Bar)
    (touch_i : Nat) (d : Dir) (bars : Nat) (allow_touch : Bool) :
    Option Nat :=
  if requireConfirm = false then some touch_i
  else
    let endI := min (touch_i + bars) (df.length - 1)
    match confirmLoop df d ruleBreak ruleEma (barAt df (touch_i - 1)).hi
        (barAt df (touch_i - 1)).lo
        (List.range' touch_i (endI + 1 - touch_i)) with
    | some i => some i
    | none => if allow_touch then some endI else none

/-- Fixed-reference break test of the claim: the candidate bar's close is
compared against the stored extreme of the one bar before the touch bar. -/
def breakPred (df : List Bar) (prevHi prevLo : ℚ) (d : Dir) (i : Nat) :
    Bool :=
  match d with
  | Dir.UP => decide (prevHi < (barAt df i).cl)
  | Dir.DOWN => decide ((barAt df i).cl < prevLo)

/-- Modelled from the claim: fixed-reference break rule — the first bar of
the confirmation window whose close breaks the high (long) / low (short) of
the single bar immediately preceding the touch bar, clamped to index 0; the
reference bar is the same for every candidate bar of the window. -/
def breakFixedRef (df : List Bar) (touch_i : Nat) (d : Dir) (bars : Nat) :
    Option Nat :=
  let endI := min (touch_i + bars) (df.length - 1)
  (List.range' touch_i (endI + 1 - touch_i)).find?
    (breakPred df (barAt df (touch_i - 1)).hi (barAt df (touch_i - 1)).lo d)

theorem confirmLoop_cons (df : List Bar) (d : Dir) (rb re : Bool)
    (prevHi prevLo : ℚ) (i : Nat) (rest : List Nat) :
    confirmLoop df d rb re prevHi prevLo (i :: rest) =
      if rb = true ∧ d = Dir.UP ∧ prevHi < (barAt df i).cl then some i
      else if rb = true ∧ d = Dir.DOWN ∧ (barAt df i).cl < prevLo then some i
      else if re = true ∧ d = Dir.UP ∧ (barAt df i).ef < (barAt df i).cl ∧
          (barAt df i).es < (barAt df i).ef then some i
      else if re = true ∧ d = Dir.DOWN ∧ (barAt df i).cl < (barAt df i).ef ∧
          (barAt df i).ef < (barAt df i).es then some i
      else confirmLoop df d rb re prevHi prevLo rest := rfl

theorem confirmLoop_break_eq_find (df : List Bar) (d : Dir)
    (prevHi prevLo : ℚ) :
    ∀ l : List Nat, confirmLoop df d true false prevHi prevLo l =
      l.find? (breakPred df prevHi prevLo d) := by
  intro l
  induction l with
  | nil => cases d <;> rfl
  | cons i rest ih =>
    cases d with
    | UP =>
      have hpred : breakPred df prevHi prevLo Dir.UP i =
          decide (prevHi < (barAt df i).cl) := rfl
      by_cases hc : prevHi < (barAt df i).cl
      · rw [confirmLoop_cons, if_pos ⟨rfl, rfl, hc⟩]
        rw [List.find?_cons_of_pos _ (by rw [hpred]; exact decide_eq_true hc)]
      · rw [confirmLoop_cons, if_neg (fun hx => hc hx.2.2),
          if_neg (fun hx => by cases hx.2.1),
          if_neg (fun hx => by cases hx.1),
          if_neg (fun hx => by cases hx.1)]
        rw [List.find?_cons_of_neg _ (by rw [hpred]; simp [hc])]
        exact ih
    | DOWN =>
      have hpred : breakPred df prevHi prevLo Dir.DOWN i =
          decide ((barAt df i).cl < prevLo) := rfl
      by_cases hc : (barAt df i).cl < prevLo
      · rw [confirmLoop_cons, if_neg (fun hx => by cases hx.2.1),
          if_pos ⟨rfl, rfl, hc⟩]
        rw [List.find?_cons_of_pos _ (by rw [hpred]; exact decide_eq_true hc)]
      · rw [confirmLoop_cons, if_neg (fun hx => by cases hx.2.1),
          if_neg (fun hx => hc hx.2.2),
          if_neg (fun hx => by cases hx.1),
          if_neg (fun hx => by cases hx.1)]
        rw [List.find?_cons_of_neg _ (by rw [hpred]; simp [hc])]
        exact ih

/-- C10: with confirmation required and exactly the break-prior-extreme rule
enabled, `confirm_idx` equals the fixed-reference search written from the
claim: every window bar is compared against the extreme of the one bar
before the touch bar (clamped to index 0), never against its own
predecessor. -/
theorem confirm_idx_fixed_reference (df : List Bar) (touch_i : Nat) (d : Dir)
    (bars : Nat) (allow_touch : Bool) :
    confirm_idx true true false df touch_i d bars allow_touch =
      match breakFixedRef df touch_i d bars with
      | some i => some i
      | none => if allow_touch then some (min (touch_i + bars) (df.length - 1))
          else none := by
  simp only [confirm_idx, breakFixedRef]
  rw [confirmLoop_break_eq_find]
  simp

/-- Index `floor(q*(n-1))` of the linear-interpolation quantile. -/
def quantFloor (s : List ℚ) (q : ℚ) : ℕ :=
  (⌊q * ((s.length : ℚ) - 1)⌋).toNat

/-- Upper interpolation index of the quantile, clamped to the last entry. -/
def quantIdx (s : List ℚ) (q : ℚ) : ℕ :=
  min (quantFloor s q + 1) (s.length - 1)

/-- Linear-interpolation quantile over an ascending sorted list: with
`h = q*(n-1)`, `i = floor h`, the value `x_i + (h-i)*(x_{i+1} - x_i)`. -/
def quantileSorted (s : List ℚ) (q : ℚ) : ℚ :=
  s.getD (quantFloor s q) 0 +
    (q * ((s.length : ℚ) - 1) - (quantFloor s q : ℚ)) *
      (s.getD (quantIdx s q) 0 - s.getD (quantFloor s q) 0)

/-- Quantile of an unsorted sample, translated from `np.quantile` with its
default linear interpolation: sort ascending, then interpolate. -/
def npQuantile (xs : List ℚ) (q : ℚ) : ℚ :=
  quantileSorted (xs.insertionSort (fun a b => a ≤ b)) q

/-- Fraction of candidate probabilities at or above a threshold
(`(probs >= thr).mean()`). -/
def passRate (probs : List ℚ) (t : ℚ) : ℚ :=
  ((probs.countP (fun p => t ≤ p)) : ℚ) / (probs.length : ℚ)

/-- Pass-rate relaxation of `build_equity`: when the raw out-of-sample pass
rate is below the configured minimum, lower the threshold to the
`(1 - minimum)`-quantile of the out-of-sample probabilities (never raise
it); otherwise leave it unchanged. -/
def relaxThreshold (minRate threshold : ℚ) (probs : List ℚ) : ℚ :=
  if passRate probs threshold < minRate then
    min threshold (npQuantile probs (1 - minRate))
  else threshold

/-- Counterexample to C2: out-of-sample probabilities 0.1,0.2,0.3,0.4 with
threshold 0.5 and minimum pass rate 0.9.  The relaxed threshold is the
0.1-quantile 0.13, which only 3 of the 4 candidates reach: the final pass
rate is 0.75, below the configured 0.9 by far more than any floating-point
tolerance. -/
theorem pass_rate_counterexample :
    passRate [1/10, 2/10, 3/10, 4/10]
        (relaxThreshold (9/10) (1/2) [1/10, 2/10, 3/10, 4/10]) = 3/4 ∧
      (3/4 : ℚ) < 9/10 := by
  constructor
  · norm_num [passRate, relaxThreshold, npQuantile, quantileSorted,
      quantFloor, quantIdx, List.insertionSort, List.orderedInsert,
      List.countP_cons]
  · norm_num

theorem sorted_getD_mono {s : List ℚ} (hs : s.Sorted (fun a b => a ≤ b))
    {a b : ℕ} (hab : a ≤ b) (hb : b < s.length) :
    s.getD a 0 ≤ s.getD b 0 := by
  have ha : a < s.length := lt_of_le_of_lt hab hb
  rw [List.getD_eq_getElem s 0 ha, List.getD_eq_getElem s 0 hb]
  rcases eq_or_lt_of_le hab with rfl | hlt
  · exact le_refl _
  · exact List.pairwise_iff_getElem.mp hs a b ha hb hlt

theorem sorted_drop_le {s : List ℚ} (hs : s.Sorted (fun a b => a ≤ b))
    (j : ℕ) : ∀ x ∈ s.drop j, s.getD j 0 ≤ x := by
  intro x hx
  obtain ⟨k, hk, hkx⟩ := List.mem_iff_getElem.mp hx
  have hk2 : j + k < s.length := by
    have h2 := hk
    rw [List.length_drop] at h2
    omega
  have hdrop : getElem (s.drop j) k hk = getElem s (j + k) hk2 := by
    rw [List.getElem_drop]
  have hgd : getElem s (j + k) hk2 = s.getD (j + k) 0 :=
    (List.getD_eq_getElem s 0 hk2).symm
  rw [← hkx, hdrop, hgd]
  exact sorted_getD_mono hs (Nat.le_add_right j k) hk2

theorem countP_ge_of_le_getD (s : List ℚ)
    (hs : s.Sorted (fun a b => a ≤ b)) (j : ℕ) (hj : j < s.length) (t : ℚ)
    (ht : t ≤ s.getD j 0) :
    s.length - j ≤ s.countP (fun p => t ≤ p) := by
  have hdropAll : (s.drop j).countP (fun p => t ≤ p) = (s.drop j).length := by
    rw [List.countP_eq_length]
    intro x hx
    simp only [decide_eq_true_eq]
    exact le_trans ht (sorted_drop_le hs j x hx)
  have hsplit : s.countP (fun p => t ≤ p) =
      (s.take j).countP (fun p => t ≤ p) +
        (s.drop j).countP (fun p => t ≤ p) := by
    conv_lhs => rw [← List.take_append_drop j s]
    rw [List.countP_append]
  rw [hsplit, hdropAll, List.length_drop]
  omega

theorem quantileSorted_le (s : List ℚ)
    (hs : s.Sorted (fun a b => a ≤ b)) (hne : s ≠ []) (q : ℚ)
    (hq0 : 0 ≤ q) (hq1 : q ≤ 1) :
    quantileSorted s q ≤ s.getD (quantIdx s q) 0 := by
  have hn : 1 ≤ s.length := List.length_pos.mpr hne
  have hn1 : (1 : ℚ) ≤ (s.length : ℚ) := by exact_mod_cast hn
  have hh0 : 0 ≤ q * ((s.length : ℚ) - 1) := mul_nonneg hq0 (by linarith)
  have hfl0 : 0 ≤ ⌊q * ((s.length : ℚ) - 1)⌋ := Int.floor_nonneg.mpr hh0
  have hcast : (quantFloor s q : ℚ) = (⌊q * ((s.length : ℚ) - 1)⌋ : ℚ) := by
    simp only [quantFloor]
    exact_mod_cast Int.toNat_of_nonneg hfl0
  have hfle : (quantFloor s q : ℚ) ≤ q * ((s.length : ℚ) - 1) := by
    rw [hcast]
    exact Int.floor_le _
  have hflt : q * ((s.length : ℚ) - 1) < (quantFloor s q : ℚ) + 1 := by
    rw [hcast]
    exact Int.lt_floor_add_one _
  have hhle : q * ((s.length : ℚ) - 1) ≤ (s.length : ℚ) - 1 := by nlinarith
  have hfl_le : quantFloor s q ≤ s.length - 1 := by
    have h2 : (quantFloor s q : ℚ) ≤ (s.length : ℚ) - 1 := le_trans hfle hhle
    have h3 : (quantFloor s q : ℚ) + 1 ≤ (s.length : ℚ) := by linarith
    have h4 : quantFloor s q + 1 ≤ s.length := by exact_mod_cast h3
    omega
  have hij : quantFloor s q ≤ quantIdx s q := by
    simp only [quantIdx]
    omega
  have hjlt : quantIdx s q < s.length := by
    simp only [quantIdx]
    omega
  have hmono : s.getD (quantFloor s q) 0 ≤ s.getD (quantIdx s q) 0 :=
    sorted_getD_mono hs hij hjlt
  simp only [quantileSorted]
  nlinarith

theorem countP_quantile_ge (probs : List ℚ) (minRate t : ℚ)
    (hne : probs ≠ []) (h0 : 0 ≤ minRate) (h1 : minRate ≤ 1)
    (ht : t ≤ npQuantile probs (1 - minRate)) :
    minRate * (probs.length : ℚ) - 1 ≤
      (probs.countP (fun p => t ≤ p) : ℚ) := by
  set s := probs.insertionSort (fun a b => a ≤ b) with hs_def
  have hperm : List.Perm s probs := List.perm_insertionSort _ probs
  have hsorted : s.Sorted (fun a b => a ≤ b) :=
    List.sorted_insertionSort _ probs
  have hlen : s.length = probs.length := hperm.length_eq
  have hn : 0 < probs.length := List.length_pos.mpr hne
  have hne' : s ≠ [] := by
    intro hcon
    rw [hcon] at hlen
    simp only [List.length_nil] at hlen
    omega
  have hq0 : 0 ≤ 1 - minRate := by linarith
  have hq1 : 1 - minRate ≤ 1 := by linarith
  have hnp : npQuantile probs (1 - minRate) = quantileSorted s (1 - minRate) :=
    rfl
  have ht2 : t ≤ s.getD (quantIdx s (1 - minRate)) 0 :=
    le_trans (hnp ▸ ht) (quantileSorted_le s hsorted hne' _ hq0 hq1)
  have hjlt : quantIdx s (1 - minRate) < s.length := by
    simp only [quantIdx]
    omega
  have hcnt := countP_ge_of_le_getD s hsorted _ hjlt t ht2
  have hcp : s.countP (fun p => t ≤ p) = probs.countP (fun p => t ≤ p) :=
    hperm.countP_eq _
  have hn1 : (1 : ℚ) ≤ (s.length : ℚ) := by
    have h2 : 1 ≤ s.length := by omega
    exact_mod_cast h2
  have hh0 : 0 ≤ (1 - minRate) * ((s.length : ℚ) - 1) :=
    mul_nonneg hq0 (by linarith)
  have hfl0 : 0 ≤ ⌊(1 - minRate) * ((s.length : ℚ) - 1)⌋ :=
    Int.floor_nonneg.mpr hh0
  have hcast : (quantFloor s (1 - minRate) : ℚ) =
      (⌊(1 - minRate) * ((s.length : ℚ) - 1)⌋ : ℚ) := by
    simp only [quantFloor]
    exact_mod_cast Int.toNat_of_nonneg hfl0
  have hfle : (quantFloor s (1 - minRate) : ℚ) ≤
      (1 - minRate) * ((s.length : ℚ) - 1) := by
    rw [hcast]
    exact Int.floor_le _
  have hjle : (quantIdx s (1 - minRate) : ℚ) ≤
      (1 - minRate) * ((s.length : ℚ) - 1) + 1 := by
    have h2 : quantIdx s (1 - minRate) ≤ quantFloor s (1 - minRate) + 1 :=
      min_le_left _ _
    have h3 : (quantIdx s (1 - minRate) : ℚ) ≤
        (quantFloor s (1 - minRate) : ℚ) + 1 := by exact_mod_cast h2
    linarith
  have hcastcnt : ((s.length - quantIdx s (1 - minRate) : ℕ) : ℚ) =
      (s.length : ℚ) - (quantIdx s (1 - minRate) : ℚ) := by
    have h2 : quantIdx s (1 - minRate) ≤ s.length := le_of_lt hjlt
    push_cast [Nat.cast_sub h2]
    ring
  have hcntq : (s.length : ℚ) - (quantIdx s (1 - minRate) : ℚ) ≤
      (probs.countP (fun p => t ≤ p) : ℚ) := by
    rw [← hcp, ← hcastcnt]
    exact_mod_cast hcnt
  have hlenq : (s.length : ℚ) = (probs.length : ℚ) := by exact_mod_cast hlen
  nlinarith [hcntq, hjle, hlenq, h1]

/-- C2 amended: whenever a trained classifier exists and the out-of-sample
candidate set is non-empty, the relaxation step never raises the threshold,
and the fraction of out-of-sample candidates at or above the final threshold
is never below `ML_MIN_PASS_RATE_TEST - 1/n`, where `n` is the out-of-sample
count; the full configured rate itself is not always reachable, because only
n+1 distinct acceptance fractions exist. -/
theorem relax_pass_rate_bound (probs : List ℚ) (minRate threshold : ℚ)
    (hne : probs ≠ []) (h0 : 0 ≤ minRate) (h1 : minRate ≤ 1) :
    relaxThreshold minRate threshold probs ≤ threshold ∧
      minRate - 1 / (probs.length : ℚ) ≤
        passRate probs (relaxThreshold minRate threshold probs) := by
  have hn : 0 < probs.length := List.length_pos.mpr hne
  have hnq : (0 : ℚ) < (probs.length : ℚ) := by exact_mod_cast hn
  unfold relaxThreshold
  split_ifs with hraw
  · refine ⟨min_le_left _ _, ?_⟩
    have hcnt := countP_quantile_ge probs minRate
      (min threshold (npQuantile probs (1 - minRate))) hne h0 h1
      (min_le_right _ _)
    unfold passRate
    rw [le_div_iff₀ hnq]
    have hexp : (minRate - 1 / (probs.length : ℚ)) * (probs.length : ℚ) =
        minRate * (probs.length : ℚ) - 1 := by
      field_simp
    rw [hexp]
    exact hcnt
  · refine ⟨le_refl _, ?_⟩
    have hge : minRate ≤ passRate probs threshold := not_lt.mp hraw
    have hpos : 0 < 1 / (probs.length : ℚ) := by positivity
    linarith

/-- Witness for the amended C2 at the counterexample's inputs: with four
candidates the guaranteed bound is 0.9 - 1/4 = 0.65, and the achieved pass
rate 0.75 meets it while the threshold is indeed not raised. -/
theorem relax_pass_rate_bound_witness :
    ([1/10, 2/10, 3/10, 4/10] : List ℚ) ≠ [] ∧ (0 : ℚ) ≤ 9/10 ∧
      (9/10 : ℚ) ≤ 1 ∧
      (relaxThreshold (9/10) (1/2) [1/10, 2/10, 3/10, 4/10] ≤ 1/2 ∧
        9/10 - 1 / (([1/10, 2/10, 3/10, 4/10] : List ℚ).length : ℚ) ≤
          passRate [1/10, 2/10, 3/10, 4/10]
            (relaxThreshold (9/10) (1/2) [1/10, 2/10, 3/10, 4/10])) :=
  ⟨by simp, by norm_num, by norm_num,
   relax_pass_rate_bound [1/10, 2/10, 3/10, 4/10] (9/10) (1/2)
     (by simp) (by norm_num) (by norm_num)⟩

end EW
